import Mathlib

/-!
Verification of the frontity comment-normalization schema and AMP video
processor.

Shallow embedding of:
* `src/packages/wp-source/src/libraries/schemas/comments.ts` — the normalizr
  schema for WordPress comment entities (`commentEntity`, `comments`), whose
  `processStrategy` shallow-copies each raw record and rewrites its `link`
  field through the `normalize` route utility;
* the AMP `video` processor (`src/unnamed/part_002`) — matches HTML nodes whose
  component is `"video"` and rewrites them into `amp-video` markup.

The `normalize` string transform lives in `route-utils`, which is not part of
the given sources, and the normalization pipeline itself is the semantics of
the `normalizr` library driven by the schema configuration; both are modelled
from the specification where indicated.
-/

namespace Frontity

/-- A raw WordPress comment record as delivered by the REST API: an optional
identifier (`id` may be missing on malformed entities), a `link` string, and
the remaining fields kept abstractly as a key/value list. -/
structure RawComment where
  id : Option Nat
  link : String
  other : List (String × String)
deriving DecidableEq, Repr

/-- The site origin used by the route utilities.  Concrete value taken from the
specification's worked example (`https://example.com/post/1` ↦ `/post/1`). -/
def siteOrigin : String := "https://example.com"

/-- Modelled from the spec: the `normalize` link transform of `route-utils` is
not among the given sources.  Per the spec it is a deterministic, idempotent
URL rewrite whose example rule is site-relative path derivation ("strip the
origin"): a link beginning with the site origin followed by `/` is replaced by
its site-relative path; any other string is returned unchanged. -/
def normalize (s : String) : String :=
  if (siteOrigin.data ++ ['/']).isPrefixOf s.data then
    String.mk (s.data.drop siteOrigin.length)
  else s

/-- The `processStrategy` of `commentEntity` (comments.ts lines 8–12): shallow
copy the entity and replace its `link` by `normalize(link)`; all other fields
are carried over by the copy. -/
def processStrategy (entity : RawComment) : RawComment :=
  { entity with link := normalize entity.link }

/-- Modelled from the spec: the error signalled by the normalization layer when
a raw entity lacks its identifier field. -/
structure MalformedEntityError where
  message : String
deriving DecidableEq, Repr

/-- The result of normalizing a comment collection: the ordered identifier
sequence reflecting input order, and the identifier → entity mapping
(represented as an association list with unique keys). -/
structure NormalizedResult where
  order : List Nat
  entities : List (Nat × RawComment)
deriving DecidableEq, Repr

/-- Write an entity into the mapping under key `i`: overwrite the existing
entry for `i` when present (last write wins), otherwise append. -/
def insertEntity (i : Nat) (c : RawComment) :
    List (Nat × RawComment) → List (Nat × RawComment)
  | [] => [(i, c)]
  | (j, d) :: rest =>
    if j = i then (i, c) :: rest else (j, d) :: insertEntity i c rest

/-- Look an identifier up in the entity mapping. -/
def getEntity (i : Nat) : List (Nat × RawComment) → Option RawComment
  | [] => none
  | (j, d) :: rest => if j = i then some d else getEntity i rest

/-- Modelled from the spec: the normalization loop of the `normalizr` library
driven by `schema.Array commentEntity`, processing array elements in order with
an accumulated order list and entity table.  Each element is passed through
`processStrategy` and stored under its identifier; an element without an
identifier makes normalization fail with a `MalformedEntityError`. -/
def normalizeGo : List RawComment → List Nat → List (Nat × RawComment) →
    Except MalformedEntityError NormalizedResult
  | [], ord, ents => .ok ⟨ord, ents⟩
  | e :: rest, ord, ents =>
    match e.id with
    | none => .error ⟨"raw comment entity lacks the identifier field"⟩
    | some i => normalizeGo rest (ord ++ [i]) (insertEntity i (processStrategy e) ents)

/-- The entity normalizer: `normalize(input, comments)` with the schema of
comments.ts.  Produces the ordered identifier sequence plus the entity mapping,
or fails on a record without identifier. -/
def normalizeComments (input : List RawComment) :
    Except MalformedEntityError NormalizedResult :=
  normalizeGo input [] []

/-- The last record of the list whose identifier is `some i`, if any. -/
def lastWith (i : Nat) : List RawComment → Option RawComment
  | [] => none
  | e :: rest =>
    match lastWith i rest with
    | some e' => some e'
    | none => if e.id = some i then some e else none

/-- A heap of comment records, addressed by position; mutation of a record in
place is modelled by `List.set`.  Used to express the JavaScript object
semantics of `processStrategy`. -/
abbrev Heap := List RawComment

/-- Assignment `record.link = l` on the record stored at address `a`:
mutates the heap cell in place; no-op on a dangling address. -/
def setLinkAt (h : Heap) (a : Nat) (l : String) : Heap :=
  match h.get? a with
  | some e => h.set a { e with link := l }
  | none => h

/-- JavaScript-object-level `processStrategy` (comments.ts lines 8–12):
`const result = ...entity` allocates a fresh shallow copy at the end of the
heap, the assignment `result.link = normalize(result.link)` mutates only that
fresh cell, and the address of the copy is returned. -/
def processStrategyJS (h : Heap) (a : Nat) : Heap × Nat :=
  match h.get? a with
  | some e =>
    let h1 := h ++ [e]
    (setLinkAt h1 h.length (normalize e.link), h.length)
  | none => (h, a)

/-- The worked example of the spec: one comment with a site-absolute link. -/
def exComment : RawComment :=
  ⟨some 1, "https://example.com/post/1", [("text", "hi")]⟩

/-- Singleton example input. -/
def exInput : List RawComment := [exComment]

/-- Normalized form of `exInput`. -/
def exRes : NormalizedResult :=
  ⟨[1], [(1, ⟨some 1, "/post/1", [("text", "hi")]⟩)]⟩

/-- First of two records sharing identifier 1 but with different links. -/
def dupA : RawComment := ⟨some 1, "a", []⟩

/-- Second record with the same identifier as `dupA`. -/
def dupB : RawComment := ⟨some 1, "b", []⟩

/-- Input with a duplicated identifier. -/
def dupInput : List RawComment := [dupA, dupB]

/-- Normalized form of `dupInput`: last write wins. -/
def dupRes : NormalizedResult := ⟨[1, 1], [(1, ⟨some 1, "b", []⟩)]⟩

/-- An input whose only record lacks the identifier field. -/
def badInput : List RawComment := [⟨none, "x", []⟩]

/-- A value carried by a node prop: HTML attribute values arrive as strings,
while the processor itself writes the numeric defaults 16 and 9. -/
inductive PropValue where
  | str : String → PropValue
  | num : Nat → PropValue
deriving DecidableEq, Repr

/-- The component of an html2react node: either a plain tag name such as
`"video"`, or the `AMPVideo` React component installed by the processor. -/
inductive Component where
  | name : String → Component
  | AMPVideo : Component
deriving DecidableEq, Repr

/-- An html2react element node: its component and its props map. -/
structure Node where
  component : Component
  props : List (String × PropValue)
deriving DecidableEq, Repr

/-- Read a prop (a missing key models `undefined`). -/
def getProp : List (String × PropValue) → String → Option PropValue
  | [], _ => none
  | (k', v) :: rest, k => if k' = k then some v else getProp rest k

/-- Write a prop: overwrite when the key is present, append otherwise. -/
def setProp : List (String × PropValue) → String → PropValue →
    List (String × PropValue)
  | [], k, v => [(k, v)]
  | (k', v') :: rest, k, v =>
    if k' = k then (k, v) :: rest else (k', v') :: setProp rest k v

/-- JavaScript truthiness of a possibly-missing prop value: `undefined`, the
empty string and the number 0 are falsy. -/
def truthy : Option PropValue → Bool
  | none => false
  | some (.str s) => !(s == "")
  | some (.num n) => !(n == 0)

/-- JavaScript disjunction `a || b` on prop values. -/
def jsOr (a b : Option PropValue) : Option PropValue :=
  if truthy a then a else b

/-- Leading decimal digits of a character list, `none` when there are none. -/
def parseDigits (cs : List Char) : Option Nat :=
  let ds := cs.takeWhile Char.isDigit
  if ds.isEmpty then none
  else some (ds.foldl (fun acc c => acc * 10 + (c.toNat - 48)) 0)

/-- JavaScript `parseInt(s, 10)`: skip leading whitespace, accept an optional
sign, read leading decimal digits; `none` models `NaN`. -/
def parseIntStr (s : String) : Option Int :=
  let cs := s.data.dropWhile (fun c => c.isWhitespace)
  match cs with
  | '-' :: rest => (parseDigits rest).map (fun n => -(n : Int))
  | '+' :: rest => (parseDigits rest).map (fun n => (n : Int))
  | _ => (parseDigits cs).map (fun n => (n : Int))

/-- Result of `parseInt` on a prop value (numbers are converted exactly). -/
def jsParseInt : PropValue → Option Int
  | .num n => some (n : Int)
  | .str s => parseIntStr s

/-- Positivity of a `parseInt` result, false for `NaN`. -/
def posNum : Option Int → Bool
  | some n => decide (0 < n)
  | none => false

/-- Positivity of `parseInt` on a possibly-missing prop value. -/
def posParse : Option PropValue → Bool
  | some v => posNum (jsParseInt v)
  | none => false

/-- The AMP-requires-HTTPS step of the processor: when the `src` prop is a
string matching the anchored regular expression for an `http` scheme, that
scheme is replaced by `https`. -/
def rewriteSrc (props : List (String × PropValue)) : List (String × PropValue) :=
  match getProp props "src" with
  | some (.str s) =>
    if "http://".data.isPrefixOf s.data then
      setProp props "src" (.str ("https://" ++ String.mk (s.data.drop 7)))
    else props
  | _ => props

/-- Matching predicate of the `amp-video` processor: matches nodes whose
component is `"video"`. -/
def videoTest (node : Node) : Bool :=
  node.component == Component.name "video"

/-- Node rewrite of the `amp-video` processor: installs the `AMPVideo`
component, forces `src` to HTTPS, derives the `width` prop from `props.width`
falling back to `props["data-origwidth"]` and the `height` prop from
`props.width` falling back to `props["data-origheight"]` when both parse to
positive integers (defaulting to 16 × 9 otherwise), and sets
`layout="responsive"`.  A missing derived value behaves like the
`parseInt(undefined) = NaN` branch of the source. -/
def videoProcessor (node : Node) : Node :=
  let props0 := rewriteSrc node.props
  let w := jsOr (getProp props0 "width") (getProp props0 "data-origwidth")
  let h := jsOr (getProp props0 "width") (getProp props0 "data-origheight")
  let props1 :=
    match w, h with
    | some wv, some hv =>
      if posNum (jsParseInt wv) && posNum (jsParseInt hv) then
        setProp (setProp props0 "width" wv) "height" hv
      else
        setProp (setProp props0 "height" (.num 9)) "width" (.num 16)
    | _, _ =>
      setProp (setProp props0 "height" (.num 9)) "width" (.num 16)
  { component := Component.AMPVideo,
    props := setProp props1 "layout" (.str "responsive") }

/-- An html2react processor: its name, matching predicate, and node rewrite. -/
structure Processor where
  procName : String
  test : Node → Bool
  processor : Node → Node

/-- The `amp-video` processor object. -/
def video : Processor :=
  { procName := "amp-video", test := videoTest, processor := videoProcessor }

/-- A video node specifying only the original dimensions 4 × 3. -/
def cexNode : Node :=
  ⟨Component.name "video",
    [("data-origwidth", .str "4"), ("data-origheight", .str "3")]⟩

example :
    normalizeComments [⟨some 1, "https://example.com/post/1", [("text", "hi")]⟩] =
      .ok ⟨[1], [(1, ⟨some 1, "/post/1", [("text", "hi")]⟩)]⟩ := rfl

example : normalize "/already/relative" = "/already/relative" := rfl

/-- On success, the produced order list is the accumulator followed by the
identifiers of the input records, in input order. -/
theorem normalizeGo_order (input : List RawComment) :
    ∀ ord ents res, normalizeGo input ord ents = .ok res →
      res.order.map some = ord.map some ++ input.map RawComment.id := by
  induction input with
  | nil =>
    intro ord ents res h
    simp only [normalizeGo] at h
    cases h
    simp
  | cons e rest ih =>
    intro ord ents res h
    simp only [normalizeGo] at h
    cases he : e.id with
    | none => rw [he] at h; cases h
    | some i =>
      rw [he] at h
      have := ih (ord ++ [i]) (insertEntity i (processStrategy e) ents) res h
      simpa [he] using this

/-- Looking up the freshly written key returns the freshly written entity. -/
theorem getEntity_insertEntity_self (i : Nat) (c : RawComment)
    (es : List (Nat × RawComment)) :
    getEntity i (insertEntity i c es) = some c := by
  induction es with
  | nil => simp [insertEntity, getEntity]
  | cons p rest ih =>
    obtain ⟨j, d⟩ := p
    by_cases hji : j = i
    · simp [insertEntity, hji, getEntity]
    · simp [insertEntity, hji, getEntity, ih]

/-- Writing under a different key leaves a lookup unchanged. -/
theorem getEntity_insertEntity_ne {j i : Nat} (h : j ≠ i) (c : RawComment)
    (es : List (Nat × RawComment)) :
    getEntity i (insertEntity j c es) = getEntity i es := by
  induction es with
  | nil => simp [insertEntity, getEntity, h]
  | cons p rest ih =>
    obtain ⟨k, d⟩ := p
    by_cases hkj : k = j
    · subst hkj
      simp [insertEntity, getEntity, h]
    · by_cases hki : k = i
      · subst hki
        simp [insertEntity, hkj, getEntity]
      · simp [insertEntity, hkj, getEntity, hki, ih]

/-- The keys after a write are the old keys together with the written key. -/
theorem mem_keys_insertEntity {k i : Nat} (c : RawComment)
    (es : List (Nat × RawComment)) :
    k ∈ (insertEntity i c es).map Prod.fst ↔ k = i ∨ k ∈ es.map Prod.fst := by
  induction es with
  | nil => simp [insertEntity]
  | cons p rest ih =>
    obtain ⟨j, d⟩ := p
    by_cases hji : j = i
    · subst hji
      simp [insertEntity]
    · simp only [insertEntity, if_neg hji, List.map_cons, List.mem_cons, ih]
      tauto

/-- A write preserves distinctness of the mapping's keys. -/
theorem keys_insertEntity_nodup {i : Nat} (c : RawComment)
    {es : List (Nat × RawComment)} (h : (es.map Prod.fst).Nodup) :
    ((insertEntity i c es).map Prod.fst).Nodup := by
  induction es with
  | nil => simp [insertEntity]
  | cons p rest ih =>
    obtain ⟨j, d⟩ := p
    simp only [List.map_cons, List.nodup_cons] at h
    by_cases hji : j = i
    · subst hji
      simpa [insertEntity] using h
    · have := ih h.2
      simp only [insertEntity, if_neg hji, List.map_cons, List.nodup_cons]
      refine ⟨fun hmem => ?_, this⟩
      rcases (mem_keys_insertEntity c rest).mp hmem with h1 | h2
      · exact hji h1
      · exact h.1 h2

/-- On success, the entity stored under `i` is the processed form of the last
input record carrying identifier `i`; keys absent from the input keep their
initial table entry. -/
theorem normalizeGo_getEntity (input : List RawComment) :
    ∀ ord ents res, normalizeGo input ord ents = .ok res → ∀ i,
      getEntity i res.entities =
        match lastWith i input with
        | some e => some (processStrategy e)
        | none => getEntity i ents := by
  induction input with
  | nil =>
    intro ord ents res h i
    simp only [normalizeGo] at h
    cases h
    simp [lastWith]
  | cons e rest ih =>
    intro ord ents res h i
    simp only [normalizeGo] at h
    cases he : e.id with
    | none => rw [he] at h; cases h
    | some j =>
      rw [he] at h
      have hrec := ih (ord ++ [j]) (insertEntity j (processStrategy e) ents) res h i
      cases hl : lastWith i rest with
      | some e' => simp [lastWith, hl, hrec]
      | none =>
        rw [hl] at hrec
        by_cases hji : j = i
        · subst hji
          simp [lastWith, hl, he, hrec, getEntity_insertEntity_self]
        · have hne : e.id ≠ some i := by rw [he]; simpa using hji
          simp [lastWith, hl, hne, hrec, getEntity_insertEntity_ne hji]

/-- Normalization preserves distinctness of the entity-table keys. -/
theorem normalizeGo_keys_nodup (input : List RawComment) :
    ∀ ord ents res, normalizeGo input ord ents = .ok res →
      (ents.map Prod.fst).Nodup → (res.entities.map Prod.fst).Nodup := by
  induction input with
  | nil =>
    intro ord ents res h hn
    simp only [normalizeGo] at h
    cases h
    exact hn
  | cons e rest ih =>
    intro ord ents res h hn
    simp only [normalizeGo] at h
    cases he : e.id with
    | none => rw [he] at h; cases h
    | some j =>
      rw [he] at h
      exact ih _ _ res h (keys_insertEntity_nodup _ hn)

/-- Every identifier in the produced order list is a key of the produced
entity table, provided the invariant held of the accumulators. -/
theorem normalizeGo_order_mem_keys (input : List RawComment) :
    ∀ ord ents res, normalizeGo input ord ents = .ok res →
      (∀ i ∈ ord, i ∈ ents.map Prod.fst) →
      ∀ i ∈ res.order, i ∈ res.entities.map Prod.fst := by
  induction input with
  | nil =>
    intro ord ents res h hinv
    simp only [normalizeGo] at h
    cases h
    exact hinv
  | cons e rest ih =>
    intro ord ents res h hinv
    simp only [normalizeGo] at h
    cases he : e.id with
    | none => rw [he] at h; cases h
    | some j =>
      rw [he] at h
      refine ih _ _ res h ?_
      intro i hi
      rw [mem_keys_insertEntity]
      rcases List.mem_append.mp hi with hi | hi
      · exact Or.inr (hinv i hi)
      · simp only [List.mem_singleton] at hi
        exact Or.inl hi

/-- An input containing a record without identifier makes the loop fail. -/
theorem normalizeGo_error (input : List RawComment)
    (hmem : ∃ e ∈ input, e.id = none) :
    ∀ ord ents, ∃ err, normalizeGo input ord ents = .error err := by
  induction input with
  | nil => simp at hmem
  | cons e rest ih =>
    intro ord ents
    cases he : e.id with
    | none =>
      exact ⟨⟨"raw comment entity lacks the identifier field"⟩,
        by simp [normalizeGo, he]⟩
    | some j =>
      obtain ⟨e', he', hid⟩ := hmem
      rcases List.mem_cons.mp he' with rfl | hrest
      · rw [he] at hid; cases hid
      · obtain ⟨err, herr⟩ := ih ⟨e', hrest, hid⟩ (ord ++ [j])
          (insertEntity j (processStrategy e) ents)
        exact ⟨err, by simp [normalizeGo, he, herr]⟩

/-- If no record of the list carries identifier `i`, `lastWith` finds none. -/
theorem lastWith_eq_none {i : Nat} {l : List RawComment}
    (h : ∀ x ∈ l, x.id ≠ some i) : lastWith i l = none := by
  induction l with
  | nil => rfl
  | cons e rest ih =>
    have hrest : lastWith i rest = none :=
      ih fun x hx => h x (List.mem_cons_of_mem e hx)
    simp [lastWith, hrest, h e (List.mem_cons_self e rest)]

/-- With pairwise-distinct identifiers, the unique record carrying `some i` is
what `lastWith` finds. -/
theorem lastWith_of_nodup {i : Nat} {l : List RawComment} {e : RawComment}
    (hnd : (l.map RawComment.id).Nodup) (hmem : e ∈ l) (hid : e.id = some i) :
    lastWith i l = some e := by
  induction l with
  | nil => simp at hmem
  | cons e' rest ih =>
    simp only [List.map_cons, List.nodup_cons] at hnd
    rcases List.mem_cons.mp hmem with rfl | hrest
    · have hnone : lastWith i rest = none := by
        refine lastWith_eq_none fun x hx hxid => ?_
        exact hnd.1 (by rw [hid, ← hxid]; exact List.mem_map_of_mem RawComment.id hx)
      simp [lastWith, hnone, hid]
    · have := ih hnd.2 hrest
      simp [lastWith, this]

/-- A lookup that succeeds witnesses that the key is present in the table. -/
theorem mem_keys_of_getEntity_some {i : Nat} {es : List (Nat × RawComment)}
    {c : RawComment} (h : getEntity i es = some c) :
    i ∈ es.map Prod.fst := by
  induction es with
  | nil => simp [getEntity] at h
  | cons p rest ih =>
    obtain ⟨j, d⟩ := p
    by_cases hji : j = i
    · simp [hji]
    · simp only [getEntity, if_neg hji] at h
      simp [ih h]

/-- C1 (counterexample): with a duplicated identifier, normalization succeeds
but the entity stored under that identifier carries the last record's link,
which differs from `normalize` of the first record's link — so the claim does
not hold of *every* input record. -/
theorem comments_C1_counterexample :
    normalizeComments dupInput = Except.ok dupRes ∧
    dupA ∈ dupInput ∧ dupA.id = some 1 ∧
    getEntity 1 dupRes.entities = some ⟨some 1, "b", []⟩ ∧
    ("b" : String) ≠ normalize dupA.link :=
  ⟨rfl, by decide, rfl, rfl, by decide⟩

/-- C1 (amended: restricted to inputs with pairwise-distinct identifiers):
on success, the entity stored under each record's identifier has its link equal
to `normalize` of the original link, and the identifier and every other field
of the record are preserved unchanged. -/
theorem comments_C1_link_normalized (input : List RawComment)
    (res : NormalizedResult) (e : RawComment) (i : Nat)
    (hok : normalizeComments input = .ok res)
    (hnd : (input.map RawComment.id).Nodup)
    (hmem : e ∈ input) (hid : e.id = some i) :
    ∃ c, getEntity i res.entities = some c ∧
      c.link = normalize e.link ∧ c.id = e.id ∧ c.other = e.other := by
  have hlw := lastWith_of_nodup hnd hmem hid
  have hget := normalizeGo_getEntity input [] [] res hok i
  rw [hlw] at hget
  exact ⟨processStrategy e, hget, rfl, rfl, rfl⟩

/-- Witness for C1 at the spec's worked example. -/
theorem comments_C1_witness :
    (normalizeComments exInput = .ok exRes ∧
      (exInput.map RawComment.id).Nodup ∧
      exComment ∈ exInput ∧ exComment.id = some 1) ∧
    ∃ c, getEntity 1 exRes.entities = some c ∧
      c.link = normalize exComment.link ∧ c.id = exComment.id ∧
      c.other = exComment.other :=
  ⟨⟨rfl, by decide, by decide, rfl⟩,
    comments_C1_link_normalized exInput exRes exComment 1 rfl (by decide)
      (by decide) rfl⟩

/-- C2: for a (non-empty) input whose records have pairwise-distinct
identifiers, the returned order list has the input's length and lists the
identifiers exactly in input order. -/
theorem comments_C2_order (input : List RawComment) (res : NormalizedResult)
    (hok : normalizeComments input = .ok res)
    (hnd : (input.map RawComment.id).Nodup) (hne : input ≠ []) :
    res.order.length = input.length ∧
      res.order.map some = input.map RawComment.id := by
  have h := normalizeGo_order input [] [] res hok
  simp only [List.map_nil, List.nil_append] at h
  refine ⟨?_, h⟩
  have hlen := congrArg List.length h
  simpa using hlen

/-- Witness for C2 at the spec's worked example. -/
theorem comments_C2_witness :
    (normalizeComments exInput = .ok exRes ∧
      (exInput.map RawComment.id).Nodup ∧ exInput ≠ []) ∧
    (exRes.order.length = exInput.length ∧
      exRes.order.map some = exInput.map RawComment.id) :=
  ⟨⟨rfl, by decide, by decide⟩,
    comments_C2_order exInput exRes rfl (by decide) (by decide)⟩

/-- C3: on success, every identifier of the order list has exactly one entry
in the entity mapping, and the order list never drops or duplicates records
relative to the input array length. -/
theorem comments_C3_invariant (input : List RawComment) (res : NormalizedResult)
    (hok : normalizeComments input = .ok res) :
    (∀ i ∈ res.order, (res.entities.map Prod.fst).count i = 1) ∧
      res.order.length = input.length := by
  constructor
  · intro i hi
    have hnd := normalizeGo_keys_nodup input [] [] res hok (by simp)
    have hmem := normalizeGo_order_mem_keys input [] [] res hok (by simp) i hi
    exact List.count_eq_one_of_mem hnd hmem
  · have h := normalizeGo_order input [] [] res hok
    simp only [List.map_nil, List.nil_append] at h
    have hlen := congrArg List.length h
    simpa using hlen

/-- Witness for C3 at the duplicated-identifier input. -/
theorem comments_C3_witness :
    normalizeComments dupInput = .ok dupRes ∧
    ((∀ i ∈ dupRes.order, (dupRes.entities.map Prod.fst).count i = 1) ∧
      dupRes.order.length = dupInput.length) :=
  ⟨rfl, comments_C3_invariant dupInput dupRes rfl⟩

/-- C4: an input containing a record that lacks the identifier field makes the
normalizer fail with a `MalformedEntityError` instead of producing a result. -/
theorem comments_C4_malformed (input : List RawComment)
    (hmem : ∃ e ∈ input, e.id = none) :
    ∃ err : MalformedEntityError, normalizeComments input = .error err :=
  normalizeGo_error input hmem [] []

/-- Witness for C4 at an input whose record has no identifier. -/
theorem comments_C4_witness :
    (∃ e ∈ badInput, e.id = none) ∧
    ∃ err : MalformedEntityError, normalizeComments badInput = .error err :=
  ⟨⟨⟨none, "x", []⟩, by decide, rfl⟩,
    comments_C4_malformed badInput ⟨⟨none, "x", []⟩, by decide, rfl⟩⟩

/-- C5: when an identifier occurs in two or more input records, the entity
mapping holds a single entry for it, containing the normalized data of the
last such record (last write wins). -/
theorem comments_C5_lastWriteWins (input : List RawComment)
    (res : NormalizedResult) (i : Nat) (e : RawComment)
    (hok : normalizeComments input = .ok res)
    (hdup : 2 ≤ input.countP (fun x => x.id == some i))
    (hlast : lastWith i input = some e) :
    (res.entities.map Prod.fst).count i = 1 ∧
      getEntity i res.entities = some { e with link := normalize e.link } := by
  have hget := normalizeGo_getEntity input [] [] res hok i
  rw [hlast] at hget
  refine ⟨?_, hget⟩
  have hnd := normalizeGo_keys_nodup input [] [] res hok (by simp)
  exact List.count_eq_one_of_mem hnd (mem_keys_of_getEntity_some hget)

/-- Witness for C5 at the duplicated-identifier input. -/
theorem comments_C5_witness :
    (normalizeComments dupInput = .ok dupRes ∧
      2 ≤ dupInput.countP (fun x => x.id == some 1) ∧
      lastWith 1 dupInput = some dupB) ∧
    ((dupRes.entities.map Prod.fst).count 1 = 1 ∧
      getEntity 1 dupRes.entities = some { dupB with link := normalize dupB.link }) :=
  ⟨⟨rfl, by decide, by decide⟩,
    comments_C5_lastWriteWins dupInput dupRes 1 dupB rfl (by decide) (by decide)⟩

/-- A boolean character-list prefix test certifies a decomposition. -/
theorem isPrefixOf_exists : ∀ (l₁ l₂ : List Char),
    l₁.isPrefixOf l₂ = true → ∃ t, l₂ = l₁ ++ t
  | [], l₂, _ => ⟨l₂, rfl⟩
  | _ :: _, [], h => by simp [List.isPrefixOf] at h
  | a :: as, b :: bs, h => by
    simp only [List.isPrefixOf, Bool.and_eq_true, beq_iff_eq] at h
    obtain ⟨rfl, h2⟩ := h
    obtain ⟨t, ht⟩ := isPrefixOf_exists as bs h2
    exact ⟨t, by rw [ht, List.cons_append]⟩

/-- C6: the `normalize` link transform is idempotent. -/
theorem normalize_idempotent (s : String) :
    normalize (normalize s) = normalize s := by
  unfold normalize
  by_cases h : ((siteOrigin.data ++ ['/']).isPrefixOf s.data) = true
  · simp only [h, if_true]
    obtain ⟨t, ht⟩ := isPrefixOf_exists _ _ h
    have hd : s.data.drop siteOrigin.length = '/' :: t := by
      rw [ht, List.drop_append_of_le_length (by decide)]
      rfl
    show (if (siteOrigin.data ++ ['/']).isPrefixOf (s.data.drop siteOrigin.length) = true
        then _ else _) = _
    rw [hd]
    have hfalse : ((siteOrigin.data ++ ['/']).isPrefixOf ('/' :: t)) = false := rfl
    rw [hfalse]
    simp
  · simp [h]

/-- C7: `processStrategy` has no side effect on its input — every record that
existed before the call is unchanged afterwards — and the record at the
returned address is exactly the pure `processStrategy` of the input record. -/
theorem processStrategy_pure (h : Heap) (a : Nat) (e : RawComment)
    (hget : h.get? a = some e) :
    (∀ b, b < h.length → (processStrategyJS h a).1.get? b = h.get? b) ∧
      (processStrategyJS h a).1.get? (processStrategyJS h a).2 =
        some (processStrategy e) := by
  have hlen : (h ++ [e]).get? h.length = some e := List.get?_concat_length h e
  constructor
  · intro b hb
    simp only [processStrategyJS, hget, setLinkAt, hlen]
    rw [List.get?_set_ne _ _ (by omega), List.get?_append hb]
  · simp only [processStrategyJS, hget, setLinkAt, hlen]
    rw [List.get?_set_eq_of_lt _ (by simp)]
    rfl

/-- Witness for C7 on a one-record heap. -/
theorem processStrategy_pure_witness :
    ([exComment] : Heap).get? 0 = some exComment ∧
    ((∀ b, b < ([exComment] : Heap).length →
        (processStrategyJS [exComment] 0).1.get? b = ([exComment] : Heap).get? b) ∧
      (processStrategyJS [exComment] 0).1.get? (processStrategyJS [exComment] 0).2 =
        some (processStrategy exComment)) :=
  ⟨rfl, processStrategy_pure [exComment] 0 exComment rfl⟩

/-- C8: the empty input normalizes to an empty order list and an empty entity
mapping. -/
theorem comments_C8_empty : normalizeComments [] = .ok ⟨[], []⟩ := rfl

/-- Reading back the key just written returns the written value. -/
theorem getProp_setProp_self (props : List (String × PropValue))
    (k : String) (v : PropValue) : getProp (setProp props k v) k = some v := by
  induction props with
  | nil => simp [setProp, getProp]
  | cons p rest ih =>
    obtain ⟨k', v'⟩ := p
    by_cases hk : k' = k
    · simp [setProp, hk, getProp]
    · simp [setProp, hk, getProp, ih]

/-- Writing one key leaves reads of any other key unchanged. -/
theorem getProp_setProp_ne (props : List (String × PropValue))
    {k k' : String} (h : k' ≠ k) (v : PropValue) :
    getProp (setProp props k v) k' = getProp props k' := by
  have h' : k ≠ k' := Ne.symm h
  induction props with
  | nil => simp [setProp, getProp, h']
  | cons p rest ih =>
    obtain ⟨k0, v0⟩ := p
    by_cases hk : k0 = k
    · subst hk
      simp [setProp, getProp, h']
    · by_cases hk' : k0 = k'
      · subst hk'
        simp [setProp, getProp, hk]
      · simp [setProp, hk, getProp, hk', ih]

/-- The HTTPS rewrite of `src` leaves every other prop unchanged. -/
theorem getProp_rewriteSrc (props : List (String × PropValue))
    {k : String} (h : k ≠ "src") :
    getProp (rewriteSrc props) k = getProp props k := by
  unfold rewriteSrc
  cases hs : getProp props "src" with
  | none => rfl
  | some v =>
    cases v with
    | num n => rfl
    | str s =>
      by_cases hp : ("http://".data.isPrefixOf s.data) = true
      · simp only [hp, if_true]
        exact getProp_setProp_ne props h _
      · simp [hp]

/-- C9: the `amp-video` processor matches exactly the nodes whose component is
the `"video"` tag, and its processor rewrites every node's component to the
`AMPVideo` component. -/
theorem amp_video_C9_match_and_rewrite :
    (∀ n : Node, video.test n = true ↔ n.component = Component.name "video") ∧
      ∀ n : Node, (video.processor n).component = Component.AMPVideo := by
  constructor
  · intro n
    simp [video, videoTest]
  · intro n
    rfl

/-- Witness for C9 at a concrete video node. -/
theorem amp_video_C9_witness :
    ((video.test ⟨Component.name "video", []⟩) = true ↔
      (⟨Component.name "video", []⟩ : Node).component = Component.name "video") ∧
    (video.processor ⟨Component.name "video", []⟩).component = Component.AMPVideo :=
  ⟨amp_video_C9_match_and_rewrite.1 ⟨Component.name "video", []⟩,
    amp_video_C9_match_and_rewrite.2 ⟨Component.name "video", []⟩⟩

/-- Prop reads after the default 16 × 9 write sequence of the processor. -/
theorem getProp_defaultDims (P : List (String × PropValue)) :
    getProp (setProp (setProp (setProp P "height" (.num 9)) "width" (.num 16))
        "layout" (.str "responsive")) "layout" = some (.str "responsive") ∧
    getProp (setProp (setProp (setProp P "height" (.num 9)) "width" (.num 16))
        "layout" (.str "responsive")) "width" = some (.num 16) ∧
    getProp (setProp (setProp (setProp P "height" (.num 9)) "width" (.num 16))
        "layout" (.str "responsive")) "height" = some (.num 9) := by
  refine ⟨getProp_setProp_self _ _ _, ?_, ?_⟩
  · rw [getProp_setProp_ne _ (by decide) _, getProp_setProp_self]
  · rw [getProp_setProp_ne _ (by decide) _, getProp_setProp_ne _ (by decide) _,
      getProp_setProp_self]

/-- Prop reads after the write sequence of the positive-dimensions branch. -/
theorem getProp_setDims (P : List (String × PropValue)) (wv hv : PropValue) :
    getProp (setProp (setProp (setProp P "width" wv) "height" hv)
        "layout" (.str "responsive")) "layout" = some (.str "responsive") ∧
    getProp (setProp (setProp (setProp P "width" wv) "height" hv)
        "layout" (.str "responsive")) "width" = some wv ∧
    getProp (setProp (setProp (setProp P "width" wv) "height" hv)
        "layout" (.str "responsive")) "height" = some hv := by
  refine ⟨getProp_setProp_self _ _ _, ?_, ?_⟩
  · rw [getProp_setProp_ne _ (by decide) _, getProp_setProp_ne _ (by decide) _,
      getProp_setProp_self]
  · rw [getProp_setProp_ne _ (by decide) _, getProp_setProp_self]

/-- C10 (amended: the height value falls back to `data-origheight`, not to the
width-derived value): every processed node gets `layout="responsive"`; when the
width value derived from `props.width` (falling back to `data-origwidth`) and
the height value derived from `props.width` (falling back to `data-origheight`
— `props.height` is never read) both parse to positive integers, they become
the output `width` and `height`; otherwise `width` is 16 and `height` is 9. -/
theorem amp_video_C10_dimensions (node : Node) :
    getProp (videoProcessor node).props "layout" = some (PropValue.str "responsive") ∧
    ((posParse (jsOr (getProp node.props "width") (getProp node.props "data-origwidth")) &&
        posParse (jsOr (getProp node.props "width") (getProp node.props "data-origheight"))) = true →
      getProp (videoProcessor node).props "width" =
        jsOr (getProp node.props "width") (getProp node.props "data-origwidth") ∧
      getProp (videoProcessor node).props "height" =
        jsOr (getProp node.props "width") (getProp node.props "data-origheight")) ∧
    ((posParse (jsOr (getProp node.props "width") (getProp node.props "data-origwidth")) &&
        posParse (jsOr (getProp node.props "width") (getProp node.props "data-origheight"))) = false →
      getProp (videoProcessor node).props "width" = some (PropValue.num 16) ∧
      getProp (videoProcessor node).props "height" = some (PropValue.num 9)) := by
  have hw := getProp_rewriteSrc node.props (k := "width") (by decide)
  have ha := getProp_rewriteSrc node.props (k := "data-origwidth") (by decide)
  have hb := getProp_rewriteSrc node.props (k := "data-origheight") (by decide)
  simp only [videoProcessor]
  rw [hw, ha, hb]
  cases hjw : jsOr (getProp node.props "width") (getProp node.props "data-origwidth") with
  | none =>
    refine ⟨(getProp_defaultDims _).1, ?_, ?_⟩
    · intro hcond
      simp [posParse] at hcond
    · intro _
      exact ⟨(getProp_defaultDims _).2.1, (getProp_defaultDims _).2.2⟩
  | some wv =>
    cases hjh : jsOr (getProp node.props "width") (getProp node.props "data-origheight") with
    | none =>
      refine ⟨(getProp_defaultDims _).1, ?_, ?_⟩
      · intro hcond
        simp [posParse] at hcond
      · intro _
        exact ⟨(getProp_defaultDims _).2.1, (getProp_defaultDims _).2.2⟩
    | some hv =>
      dsimp only
      by_cases hc : (posNum (jsParseInt wv) && posNum (jsParseInt hv)) = true
      · rw [if_pos hc]
        refine ⟨(getProp_setDims _ wv hv).1, ?_, ?_⟩
        · intro _
          exact ⟨(getProp_setDims _ wv hv).2.1, (getProp_setDims _ wv hv).2.2⟩
        · intro hfalse
          simp only [posParse] at hfalse
          rw [hc] at hfalse
          simp at hfalse
      · rw [if_neg hc]
        refine ⟨(getProp_defaultDims _).1, ?_, ?_⟩
        · intro htrue
          simp only [posParse] at htrue
          exact absurd htrue hc
        · intro _
          exact ⟨(getProp_defaultDims _).2.1, (getProp_defaultDims _).2.2⟩

/-- C10 (counterexample): on a node with original dimensions 4 × 3 and no
`width` prop, the width-derived value `"4"` parses to a positive integer, yet
the output height is `"3"`, taken from the `data-origheight` prop — not the
width-derived value `"4"` as the claim states. -/
theorem amp_video_C10_counterexample :
    jsOr (getProp cexNode.props "width") (getProp cexNode.props "data-origwidth") =
      some (PropValue.str "4") ∧
    posParse (some (PropValue.str "4")) = true ∧
    getProp (videoProcessor cexNode).props "height" = some (PropValue.str "3") ∧
    some (PropValue.str "3") ≠ some (PropValue.str "4") :=
  ⟨rfl, rfl, rfl, by decide⟩

/-- Witness for C10 at the 4 × 3 node, taking the positive-dimensions path. -/
theorem amp_video_C10_witness :
    ((posParse (jsOr (getProp cexNode.props "width") (getProp cexNode.props "data-origwidth")) &&
        posParse (jsOr (getProp cexNode.props "width") (getProp cexNode.props "data-origheight"))) = true) ∧
    getProp (videoProcessor cexNode).props "layout" = some (PropValue.str "responsive") ∧
    (getProp (videoProcessor cexNode).props "width" =
        jsOr (getProp cexNode.props "width") (getProp cexNode.props "data-origwidth") ∧
      getProp (videoProcessor cexNode).props "height" =
        jsOr (getProp cexNode.props "width") (getProp cexNode.props "data-origheight")) :=
  ⟨rfl, (amp_video_C10_dimensions cexNode).1,
    (amp_video_C10_dimensions cexNode).2.1 rfl⟩

end Frontity
